import Mathlib

/-!
# Verification of the minhash-lsh library (Go) against its specification

Shallow embedding of the Go sources of `ekzhu/minhash-lsh`.
Machine `uint64` values are modelled as `Nat` with explicit reduction
modulo `2 ^ 64` where overflow matters; byte slices are `List Nat`
(each entry a byte value); fallible Go functions returning
`(T, error)` are modelled with `Except String T`.

The file `minhash.go` is embedded directly.  The LSH index file
(`lsh.go`: `hashKeyFuncGen`, `MinhashLSH`, the parameter optimizer) is
not present in the sources available here — only its tests and callers
are — so those components are modelled from the specification text, as
marked in their doc comments.
-/

namespace MinhashLSH

/-- `hashValueSize`: the number of bytes in a hash value (from minhash.go). -/
def hashValueSize : Nat := 8

/-- The modulus of Go `uint64` arithmetic. -/
def U64MOD : Nat := 2 ^ 64

/-- Big-endian 8-byte encoding of a `uint64` value
(`binary.BigEndian.PutUint64` / `binary.Write` of one value). -/
def putUint64BE (v : Nat) : List Nat :=
  (List.range 8).map (fun i => v / 2 ^ (8 * (7 - i)) % 256)

/-- Big-endian decoding of a byte list (`binary.BigEndian.Uint64` on 8 bytes,
generalized to any length). -/
def decodeBE (bs : List Nat) : Nat :=
  bs.foldl (fun acc b => acc * 256 + b) 0

/-- `SigToBytes` from minhash.go: serializes the signature into a byte slice,
writing each value big-endian, 8 bytes per value. -/
def SigToBytes (sig : List Nat) : List Nat :=
  (sig.map putUint64BE).flatten

/-- One `binary.Read` of a `uint64` from the reader: succeeds iff at least
8 bytes remain, consuming them. -/
def readUint64BE (data : List Nat) : Option (Nat × List Nat) :=
  if 8 ≤ data.length then some (decodeBE (data.take 8), data.drop 8) else none

/-- The read loop of `BytesToSig`: reads `n` big-endian `uint64` values in
sequence, failing if any read fails. -/
def bytesToSigLoop : Nat → List Nat → Option (List Nat)
  | 0, _ => some []
  | n + 1, data =>
    match readUint64BE data with
    | none => none
    | some (v, rest) => (bytesToSigLoop n rest).map (fun sig => v :: sig)

/-- `BytesToSig` from minhash.go: computes `size = len(data) / hashValueSize`
(integer division) and reads that many big-endian values, returning an error
if a read fails. -/
def BytesToSig (data : List Nat) : Except String (List Nat) :=
  match bytesToSigLoop (data.length / hashValueSize) data with
  | none => Except.error "unexpected EOF"
  | some sig => Except.ok sig

theorem putUint64BE_length (v : Nat) : (putUint64BE v).length = 8 := by
  simp [putUint64BE]

theorem decodeBE_putUint64BE (v : Nat) (hv : v < U64MOD) :
    decodeBE (putUint64BE v) = v := by
  have h : v < 2 ^ 64 := hv
  simp only [putUint64BE, decodeBE, List.range_succ, List.map_append,
    List.map_cons, List.map_nil, List.foldl_append, List.foldl_cons,
    List.foldl_nil]
  norm_num
  omega

theorem SigToBytes_length (sig : List Nat) :
    (SigToBytes sig).length = 8 * sig.length := by
  induction sig with
  | nil => rfl
  | cons v vs ih =>
    simp only [SigToBytes, List.map_cons, List.flatten_cons, List.length_append,
      List.length_cons, putUint64BE_length] at *
    omega

theorem bytesToSigLoop_spec (n : Nat) (data : List Nat) (h : 8 * n ≤ data.length) :
    bytesToSigLoop n data =
      some ((List.range n).map (fun i => decodeBE ((data.drop (8 * i)).take 8))) := by
  induction n generalizing data with
  | zero => rfl
  | succ m ih =>
    have h8 : 8 ≤ data.length := by omega
    have hrest : 8 * m ≤ (data.drop 8).length := by
      simp only [List.length_drop]; omega
    simp only [bytesToSigLoop, readUint64BE, if_pos h8, ih (data.drop 8) hrest,
      Option.map_some', List.range_succ_eq_map, List.map_cons, List.map_map,
      Option.some.injEq, List.cons.injEq]
    refine ⟨by simp, ?_⟩
    apply List.map_congr_left
    intro i _
    simp only [Function.comp_apply, List.drop_drop]
    have harith : 8 + 8 * i = 8 * Nat.succ i := by omega
    rw [harith]

theorem bytesToSigLoop_roundtrip (sig : List Nat) (hb : ∀ v ∈ sig, v < U64MOD) :
    bytesToSigLoop sig.length (SigToBytes sig) = some sig := by
  induction sig with
  | nil => rfl
  | cons v vs ih =>
    have hput : (putUint64BE v).length = 8 := putUint64BE_length v
    have hlen : 8 ≤ (SigToBytes (v :: vs)).length := by
      rw [SigToBytes_length]
      simp only [List.length_cons]
      omega
    have htake : (SigToBytes (v :: vs)).take 8 = putUint64BE v := by
      simp only [SigToBytes, List.map_cons, List.flatten_cons]
      rw [← hput, List.take_left]
    have hdrop : (SigToBytes (v :: vs)).drop 8 = SigToBytes vs := by
      simp only [SigToBytes, List.map_cons, List.flatten_cons]
      rw [← hput, List.drop_left]
    simp only [List.length_cons, bytesToSigLoop, readUint64BE, if_pos hlen,
      htake, hdrop, decodeBE_putUint64BE v (hb v (List.mem_cons_self v vs)),
      ih (fun w hw => hb w (List.mem_cons_of_mem v hw)), Option.map_some']

/-- **C2** (confirmed).  Round-trip: for every non-empty signature of
unsigned 64-bit values, `BytesToSig (SigToBytes sig)` succeeds and returns a
sequence equal to `sig` element-wise. -/
theorem BytesToSig_SigToBytes_roundtrip (sig : List Nat)
    (hne : sig ≠ []) (hb : ∀ v ∈ sig, v < U64MOD) :
    BytesToSig (SigToBytes sig) = Except.ok sig := by
  have hdiv : (SigToBytes sig).length / hashValueSize = sig.length := by
    rw [SigToBytes_length]
    simp only [hashValueSize]
    omega
  simp only [BytesToSig, hdiv, bytesToSigLoop_roundtrip sig hb]

/-- Witness for C2 at the concrete signature `[3, 2 ^ 64 - 1]`. -/
theorem BytesToSig_SigToBytes_roundtrip_witness :
    BytesToSig (SigToBytes [3, 2 ^ 64 - 1]) = Except.ok [3, 2 ^ 64 - 1] :=
  BytesToSig_SigToBytes_roundtrip [3, 2 ^ 64 - 1] (by decide)
    (by intro v hv; simp only [U64MOD]; fin_cases hv <;> norm_num)

/-- **C1** (counterexample).  The byte slice `[1, 2, 3]` has length 3, not a
multiple of 8, yet `BytesToSig` succeeds on it (returning the empty
signature) instead of returning an error. -/
theorem BytesToSig_C1_counterexample :
    (3 : Nat) % 8 ≠ 0 ∧ BytesToSig [1, 2, 3] = Except.ok [] := by
  constructor
  · decide
  · rfl

/-- **C1** (amended, proved).  For every byte slice whose length is not a
multiple of 8, `BytesToSig` does **not** fail: it succeeds, silently
ignoring the trailing `len mod 8` bytes, and returns `len / 8` values. -/
theorem BytesToSig_not_mul8_succeeds (data : List Nat)
    (h : data.length % 8 ≠ 0) :
    ∃ sig, BytesToSig data = Except.ok sig ∧ sig.length = data.length / 8 := by
  have hle : 8 * (data.length / 8) ≤ data.length := by
    have := Nat.div_mul_le_self data.length 8
    omega
  refine ⟨(List.range (data.length / 8)).map
    (fun i => decodeBE ((data.drop (8 * i)).take 8)), ?_, ?_⟩
  · simp only [BytesToSig, hashValueSize,
      bytesToSigLoop_spec (data.length / 8) data hle]
  · simp

/-- Witness for the amended C1 at the concrete byte slice `[1, 2, 3]`. -/
theorem BytesToSig_not_mul8_succeeds_witness :
    ∃ sig, BytesToSig [1, 2, 3] = Except.ok sig ∧
      sig.length = ([1, 2, 3] : List Nat).length / 8 :=
  BytesToSig_not_mul8_succeeds [1, 2, 3] (by decide)

/-- **C9** (confirmed).  For every byte slice whose length is a multiple of
8 (including the empty slice), `BytesToSig` succeeds and returns exactly
`len / 8` values, the `i`-th being the big-endian decoding of bytes
`[8*i, 8*i+8)` of the input. -/
theorem BytesToSig_mul8_spec (data : List Nat) (h : data.length % 8 = 0) :
    ∃ sig, BytesToSig data = Except.ok sig ∧ sig.length = data.length / 8 ∧
      ∀ i, i < data.length / 8 →
        sig[i]? = some (decodeBE ((data.drop (8 * i)).take 8)) := by
  have hle : 8 * (data.length / 8) ≤ data.length := by
    have := Nat.div_mul_le_self data.length 8
    omega
  refine ⟨(List.range (data.length / 8)).map
    (fun i => decodeBE ((data.drop (8 * i)).take 8)), ?_, ?_, ?_⟩
  · simp only [BytesToSig, hashValueSize,
      bytesToSigLoop_spec (data.length / 8) data hle]
  · simp
  · intro i hi
    rw [List.getElem?_map]
    simp [List.getElem?_range, hi]

/-- Witness for C9 at a concrete 16-byte slice. -/
theorem BytesToSig_mul8_spec_witness :
    ∃ sig, BytesToSig (List.replicate 15 0 ++ [7]) = Except.ok sig ∧
      sig.length = (List.replicate 15 (0 : Nat) ++ [7]).length / 8 ∧
      ∀ i, i < (List.replicate 15 (0 : Nat) ++ [7]).length / 8 →
        sig[i]? =
          some (decodeBE (((List.replicate 15 0 ++ [7]).drop (8 * i)).take 8)) :=
  BytesToSig_mul8_spec (List.replicate 15 0 ++ [7]) (by decide)

/-! ## SigMatches (minhash.go) -/

/-- The counting loop of `SigMatches`: for each index, compare the two
values and count the equal positions. -/
def sigMatchesLoop : List Nat → List Nat → Nat
  | v1 :: t1, v2 :: t2 => (if v1 = v2 then 1 else 0) + sigMatchesLoop t1 t2
  | _, _ => 0

/-- `SigMatches` from minhash.go: counts the number of matching hash values
between the two signatures, failing when the lengths differ. -/
def SigMatches (sig1 sig2 : List Nat) : Except String Nat :=
  if sig1.length ≠ sig2.length then
    Except.error "CountEquals cannot be used for signatures of different size"
  else
    Except.ok (sigMatchesLoop sig1 sig2)

/-- Specification-side count: the number of positions `i` at which the two
signatures hold equal values. -/
def matchPositions (sig1 sig2 : List Nat) : Nat :=
  (List.range sig1.length).countP (fun i => sig1[i]? == sig2[i]?)

theorem sigMatchesLoop_eq_matchPositions :
    ∀ s1 s2 : List Nat, s1.length = s2.length →
      sigMatchesLoop s1 s2 = matchPositions s1 s2
  | [], [], _ => rfl
  | v1 :: t1, v2 :: t2, h => by
    have ht : t1.length = t2.length := by
      simp only [List.length_cons] at h
      omega
    simp only [sigMatchesLoop, matchPositions, List.length_cons,
      List.range_succ_eq_map, List.countP_cons, List.countP_map,
      sigMatchesLoop_eq_matchPositions t1 t2 ht]
    have hcomp :
        ((fun i => (v1 :: t1)[i]? == (v2 :: t2)[i]?) ∘ Nat.succ)
          = fun i => t1[i]? == t2[i]? := by
      funext i
      simp
    rw [hcomp]
    by_cases hv : v1 = v2 <;> simp [hv] <;> omega

theorem sigMatchesLoop_comm :
    ∀ s1 s2 : List Nat, sigMatchesLoop s1 s2 = sigMatchesLoop s2 s1
  | [], [] => rfl
  | [], _ :: _ => rfl
  | _ :: _, [] => rfl
  | v1 :: t1, v2 :: t2 => by
    simp only [sigMatchesLoop, sigMatchesLoop_comm t1 t2]
    by_cases hv : v1 = v2
    · simp [hv]
    · simp [hv, Ne.symm hv]

/-- **C4** (confirmed).  `SigMatches` returns an error exactly when the two
signatures have different lengths, and otherwise returns the number of
positions at which the signatures hold equal values. -/
theorem SigMatches_spec (sig1 sig2 : List Nat) :
    ((∃ e, SigMatches sig1 sig2 = Except.error e) ↔ sig1.length ≠ sig2.length) ∧
    (sig1.length = sig2.length →
      SigMatches sig1 sig2 = Except.ok (matchPositions sig1 sig2)) := by
  constructor
  · constructor
    · intro ⟨e, he⟩ hlen
      simp [SigMatches, hlen] at he
    · intro hlen
      exact ⟨"CountEquals cannot be used for signatures of different size",
        by simp [SigMatches, hlen]⟩
  · intro hlen
    simp [SigMatches, hlen, sigMatchesLoop_eq_matchPositions sig1 sig2 hlen]

/-- Witness for C4 at the concrete signatures `[1, 2, 3]` and `[1, 5, 3]`. -/
theorem SigMatches_spec_witness :
    ((∃ e, SigMatches [1, 2, 3] [1, 5, 3] = Except.error e) ↔
      ([1, 2, 3] : List Nat).length ≠ ([1, 5, 3] : List Nat).length) ∧
    (([1, 2, 3] : List Nat).length = ([1, 5, 3] : List Nat).length →
      SigMatches [1, 2, 3] [1, 5, 3] =
        Except.ok (matchPositions [1, 2, 3] [1, 5, 3])) :=
  SigMatches_spec [1, 2, 3] [1, 5, 3]

/-- **C10** (confirmed).  `SigMatches` is symmetric: on signatures of equal
length both orders succeed and return the same count. -/
theorem SigMatches_symm (sig1 sig2 : List Nat)
    (hlen : sig1.length = sig2.length) :
    ∃ c, SigMatches sig1 sig2 = Except.ok c ∧
      SigMatches sig2 sig1 = Except.ok c := by
  refine ⟨sigMatchesLoop sig1 sig2, ?_, ?_⟩
  · simp [SigMatches, hlen]
  · simp [SigMatches, hlen.symm, sigMatchesLoop_comm sig2 sig1]

/-- Witness for C10 at the concrete signatures `[1, 2]` and `[1, 7]`. -/
theorem SigMatches_symm_witness :
    ∃ c, SigMatches [1, 2] [1, 7] = Except.ok c ∧
      SigMatches [1, 7] [1, 2] = Except.ok c :=
  SigMatches_symm [1, 2] [1, 7] (by decide)

/-! ## Minhash sketches (minhash.go, over the external go-minhash MinWise) -/

/-- The outcome of a Go call: a normal return value, a recoverable `error`
returned to the caller, or a `panic` that aborts. -/
inductive GoResult (α : Type) where
  | ok : α → GoResult α
  | err : String → GoResult α
  | panics : String → GoResult α
deriving DecidableEq

/-- `true` exactly when the outcome is a recoverable error value, as opposed
to a normal return or a panic. -/
def GoResult.isRecoverableError {α : Type} : GoResult α → Bool
  | .err _ => true
  | _ => false

/-- A `Minhash` sketch (minhash.go): the two base nonces captured by the
closures `h1`/`h2`, the underlying MinWise minimums, and the seed. -/
structure Minhash where
  nonce1 : Nat
  nonce2 : Nat
  minimums : List Nat
  seed : Int
deriving DecidableEq

/-- FNV-1a 64-bit step (Go `hash/fnv` `New64a`): xor the byte in, then
multiply by the FNV prime, modulo `2 ^ 64`. -/
def fnv64aStep (h b : Nat) : Nat := (h ^^^ b) * 1099511628211 % U64MOD

/-- FNV-1a 64-bit hash of a byte list, starting from the FNV offset basis. -/
def fnv64a (bs : List Nat) : Nat := bs.foldl fnv64aStep 14695981039346656037

/-- The first derived hash function of minhash.go: FNV-1a over the 8-byte
big-endian encoding of the first nonce followed by the input bytes
(`fnv1.Reset(); fnv1.Write(b1); fnv1.Write(b)`). -/
def Minhash.hash1 (m : Minhash) (b : List Nat) : Nat :=
  fnv64a (putUint64BE m.nonce1 ++ b)

/-- The second derived hash function, over the second nonce. -/
def Minhash.hash2 (m : Minhash) (b : List Nat) : Nat :=
  fnv64a (putUint64BE m.nonce2 ++ b)

/-- `NewMinhash` from minhash.go.  The two base nonces are the two `Int63`
draws from `rand.New(rand.NewSource(seed))`; Go's `math/rand` is outside
this repository, so the seeded generator is represented by an arbitrary
(deterministic) function `randDraws` from the seed to the two draws.  The
MinWise minimums start at `math.MaxUint64` (go-minhash `NewMinWise`). -/
def NewMinhash (randDraws : Int → Nat × Nat) (seed : Int) (numHash : Nat) :
    Minhash :=
  { nonce1 := (randDraws seed).1 % U64MOD
    nonce2 := (randDraws seed).2 % U64MOD
    minimums := List.replicate numHash (U64MOD - 1)
    seed := seed }

/-- `Push` (minhash.go delegating to go-minhash `MinWise.Push`): for each
position `i`, the candidate value is `h1(b) + i * h2(b)` modulo `2 ^ 64`,
kept if smaller than the current minimum. -/
def Minhash.Push (m : Minhash) (b : List Nat) : Minhash :=
  { m with minimums := m.minimums.mapIdx (fun i v =>
      let hv := (m.hash1 b + i * m.hash2 b) % U64MOD
      if hv < v then hv else v) }

/-- `Signature` (minhash.go delegating to go-minhash): the current list of
minimums. -/
def Minhash.Signature (m : Minhash) : List Nat := m.minimums

/-- Models the external go-minhash `MinWise.Merge`: pointwise minimum of
the two minimum lists. -/
def minwiseMergeMins (a b : List Nat) : List Nat := a.zipWith min b

/-- `Merge` from minhash.go: **panics** when the seeds differ, otherwise
merges the underlying MinWise sketches. -/
def Minhash.Merge (m o : Minhash) : GoResult Minhash :=
  if m.seed ≠ o.seed then
    GoResult.panics "Cannot merge Minhash with different seed"
  else
    GoResult.ok { m with minimums := minwiseMergeMins m.minimums o.minimums }

/-- Models the external go-minhash `MinWise.Similarity`: the fraction of
agreeing positions, as an exact rational (Go computes it in `float64`). -/
def minwiseSimilarity (a b : List Nat) : Rat :=
  (sigMatchesLoop a b : Rat) / (a.length : Rat)

/-- `Jaccard` from minhash.go: returns a recoverable error when the seeds
differ, otherwise the MinWise similarity estimate. -/
def Minhash.Jaccard (m o : Minhash) : GoResult Rat :=
  if m.seed ≠ o.seed then
    GoResult.err "Cannot compute Minhashes with different seed"
  else
    GoResult.ok (minwiseSimilarity m.minimums o.minimums)

/-- **C3** (counterexample).  On the concrete sketches with seeds 1 and 2,
`Merge` does not return a recoverable error to the caller: it panics,
aborting the program. -/
theorem Merge_C3_counterexample :
    (Minhash.Merge ⟨0, 0, [], 1⟩ ⟨0, 0, [], 2⟩).isRecoverableError = false ∧
    Minhash.Merge ⟨0, 0, [], 1⟩ ⟨0, 0, [], 2⟩ =
      GoResult.panics "Cannot merge Minhash with different seed" := by
  constructor
  · rfl
  · rfl

/-- **C3** (amended, proved).  For sketches built with different seeds,
`Jaccard` reports the incompatibility as a recoverable error value, but
`Merge` panics (aborts) rather than signalling an error to the caller. -/
theorem Merge_panics_Jaccard_errs (m o : Minhash) (h : m.seed ≠ o.seed) :
    Minhash.Merge m o =
      GoResult.panics "Cannot merge Minhash with different seed" ∧
    Minhash.Jaccard m o =
      GoResult.err "Cannot compute Minhashes with different seed" := by
  simp [Minhash.Merge, Minhash.Jaccard, h]

/-- Witness for the amended C3 at concrete sketches with seeds 1 and 2. -/
theorem Merge_panics_Jaccard_errs_witness :
    Minhash.Merge ⟨0, 0, [], 1⟩ ⟨0, 0, [], 2⟩ =
      GoResult.panics "Cannot merge Minhash with different seed" ∧
    Minhash.Jaccard ⟨0, 0, [], 1⟩ ⟨0, 0, [], 2⟩ =
      GoResult.err "Cannot compute Minhashes with different seed" :=
  Merge_panics_Jaccard_errs ⟨0, 0, [], 1⟩ ⟨0, 0, [], 2⟩ (by decide)

/-- **C7** (confirmed).  `NewMinhash` is reproducible: for any deterministic
seeded generator, two sketches created with the same `(seed, numHash)` and
fed the same sequence of pushes produce element-wise identical
signatures. -/
theorem NewMinhash_reproducible (randDraws : Int → Nat × Nat) (seed : Int)
    (numHash : Nat) (pushes : List (List Nat)) :
    ∀ i : Nat,
      (pushes.foldl Minhash.Push (NewMinhash randDraws seed numHash)).Signature[i]?
        = (pushes.foldl Minhash.Push
            (NewMinhash randDraws seed numHash)).Signature[i]? :=
  fun _ => rfl

/-! ## Band key encoder (lsh.go, modelled from the spec)

The LSH index file (`hashKeyFuncGen`, `MinhashLSH`, the parameter
optimizer) is not among the available sources — only its tests and callers
are — so its components are modelled from the specification text. -/

/-- Modelled from the spec: the `bytesPerValue` most significant bytes of a
64-bit value, in big-endian order ("keeps only the most significant 16
bits" for the narrow 2-byte variant; the full 8 bytes for the wide
variant). -/
def topBytes (v w : Nat) : List Nat :=
  (List.range w).map (fun i => v / 2 ^ (8 * (7 - i)) % 256)

/-- Modelled from the spec: the band key encoder (`hashKeyFuncGen` in
lsh.go, missing from the available sources).  `EncodeBand(band,
bytesPerValue)` maps each signature value of the band to its
`bytesPerValue` most significant bytes and concatenates them. -/
def encodeBand (band : List Nat) (bytesPerValue : Nat) : List Nat :=
  (band.map (fun v => topBytes v bytesPerValue)).flatten

theorem topBytes_length (v w : Nat) : (topBytes v w).length = w := by
  simp [topBytes]

/-- **C6** (confirmed, spec-modelled).  For every band and every supported
per-value width (2 bytes narrow, 8 bytes wide), the band key encoder
returns a byte sequence of length exactly `k * w` where `k` is the band
length. -/
theorem encodeBand_length (band : List Nat) (w : Nat) (hw : w = 2 ∨ w = 8) :
    (encodeBand band w).length = band.length * w := by
  clear hw
  induction band with
  | nil => simp [encodeBand]
  | cons v vs ih =>
    simp only [encodeBand, List.map_cons, List.flatten_cons,
      List.length_append, topBytes_length, List.length_cons] at *
    rw [ih]
    ring

/-- Witness for C6 at the concrete band `[3, 5]` with width 2. -/
theorem encodeBand_length_witness :
    (encodeBand [3, 5] 2).length = ([3, 5] : List Nat).length * 2 :=
  encodeBand_length [3, 5] 2 (Or.inl rfl)

/-! ## Parameter optimizer (lsh.go, modelled from the spec) -/

/-- Modelled from the spec: the number of sample points of the numerical
integration ("fine-grained discretization, e.g. hundreds of sample points
across `[0,1]`"). -/
def integrationPrecision : Nat := 200

/-- Modelled from the spec: the probability that two items of true
similarity `s` collide in at least one of `l` bands of width `k`:
`P(s) = 1 - (1 - s ^ k) ^ l`. -/
def collisionProb (k l : Nat) (s : Rat) : Rat := 1 - (1 - s ^ k) ^ l

/-- Modelled from the spec: the false-positive area, integrating `P(s)`
over `[0, t)` by discretization. -/
def falsePositiveArea (k l : Nat) (t : Rat) : Rat :=
  ((List.range integrationPrecision).map (fun j =>
    if (j : Rat) / (integrationPrecision : Rat) < t then
      collisionProb k l ((j : Rat) / (integrationPrecision : Rat))
    else 0)).sum / (integrationPrecision : Rat)

/-- Modelled from the spec: the false-negative area, integrating
`1 - P(s)` over `[t, 1]` by discretization. -/
def falseNegativeArea (k l : Nat) (t : Rat) : Rat :=
  ((List.range integrationPrecision).map (fun j =>
    if t ≤ (j : Rat) / (integrationPrecision : Rat) then
      1 - collisionProb k l ((j : Rat) / (integrationPrecision : Rat))
    else 0)).sum / (integrationPrecision : Rat)

/-- Modelled from the spec: the combined error
`falsePositiveWeight * fpArea + falseNegativeWeight * fnArea`. -/
def weightedError (k l : Nat) (t fpw fnw : Rat) : Rat :=
  fpw * falsePositiveArea k l t + fnw * falseNegativeArea k l t

/-- Modelled from the spec: `OptimalParams` (the parameter search of
lsh.go, missing from the available sources).  Candidates are obtained by
scanning `l` from 1 to `n` and deriving `k = n / l` by integer division;
the candidate minimizing the weighted error is selected, ties broken by
first-found order of the scan (lower `l` preferred). -/
def optimalParams (n : Nat) (t fpw fnw : Rat) : Nat × Nat :=
  match (List.range n).map (fun i => (n / (i + 1), i + 1)) with
  | [] => (0, 0)
  | c :: rest =>
    rest.foldl (fun best cand =>
      if weightedError cand.1 cand.2 t fpw fnw
          < weightedError best.1 best.2 t fpw fnw then cand else best) c

theorem foldl_best_mem {α : Type} (f : α → α → α)
    (hf : ∀ a b, f a b = a ∨ f a b = b) :
    ∀ (xs : List α) (a : α), xs.foldl f a = a ∨ xs.foldl f a ∈ xs
  | [], _ => Or.inl rfl
  | x :: xs, a => by
    simp only [List.foldl_cons]
    rcases foldl_best_mem f hf xs (f a x) with h | h
    · rw [h]
      rcases hf a x with h' | h'
      · exact Or.inl h'
      · refine Or.inr ?_
        rw [h']
        exact List.mem_cons_self x xs
    · exact Or.inr (List.mem_cons_of_mem x h)

/-- **C5** (confirmed, spec-modelled).  For every signature size `n ≥ 1`
and threshold `t ∈ (0, 1]`, the parameter optimizer returns `(k, l)` with
`k ≥ 1`, `l ≥ 1` and `k * l ≤ n`. -/
theorem optimalParams_bounds (n : Nat) (t fpw fnw : Rat)
    (hn : 1 ≤ n) (ht0 : 0 < t) (ht1 : t ≤ 1) :
    1 ≤ (optimalParams n t fpw fnw).1 ∧ 1 ≤ (optimalParams n t fpw fnw).2 ∧
      (optimalParams n t fpw fnw).1 * (optimalParams n t fpw fnw).2 ≤ n := by
  clear ht0 ht1
  have key : ∀ p ∈ (List.range n).map (fun i => (n / (i + 1), i + 1)),
      1 ≤ p.1 ∧ 1 ≤ p.2 ∧ p.1 * p.2 ≤ n := by
    intro p hp
    simp only [List.mem_map, List.mem_range] at hp
    obtain ⟨i, hi, rfl⟩ := hp
    refine ⟨?_, by omega, Nat.div_mul_le_self n (i + 1)⟩
    rw [Nat.one_le_div_iff (by omega : 0 < i + 1)]
    omega
  have hmem : optimalParams n t fpw fnw ∈
      (List.range n).map (fun i => (n / (i + 1), i + 1)) := by
    unfold optimalParams
    split
    · next heq =>
      exfalso
      have hlen := congrArg List.length heq
      simp only [List.length_map, List.length_range, List.length_nil] at hlen
      omega
    · next c rest heq =>
      rw [heq]
      have hstep : ∀ a b : Nat × Nat,
          (if weightedError b.1 b.2 t fpw fnw
              < weightedError a.1 a.2 t fpw fnw then b else a) = a ∨
          (if weightedError b.1 b.2 t fpw fnw
              < weightedError a.1 a.2 t fpw fnw then b else a) = b := by
        intro a b
        split
        · exact Or.inr rfl
        · exact Or.inl rfl
      rcases foldl_best_mem _ hstep rest c with h | h
      · rw [h]
        exact List.mem_cons_self c rest
      · exact List.mem_cons_of_mem c h
  exact key _ hmem

/-- Witness for C5 at `n = 4`, `t = 1/2`, equal weights. -/
theorem optimalParams_bounds_witness :
    1 ≤ (optimalParams 4 (1/2) (1/2) (1/2)).1 ∧
      1 ≤ (optimalParams 4 (1/2) (1/2) (1/2)).2 ∧
      (optimalParams 4 (1/2) (1/2) (1/2)).1 *
        (optimalParams 4 (1/2) (1/2) (1/2)).2 ≤ 4 :=
  optimalParams_bounds 4 (1/2) (1/2) (1/2) (by decide) (by norm_num)
    (by norm_num)

/-! ## LSH index query (lsh.go, modelled from the spec) -/

/-- Modelled from the spec: the LSH index state — the derived parameters
`k` (rows per band) and `l` (number of bands), the per-value key width,
and the `l` bucket tables, each mapping a band key to the identifiers in
that bucket. -/
structure MinhashLSH where
  k : Nat
  l : Nat
  bytesPerValue : Nat
  hashTables : List (List (List Nat × List String))

/-- Modelled from the spec: band `j` covers signature positions
`[j*k, (j+1)*k)`; each band is encoded to its key. -/
def bandKeys (k l w : Nat) (sig : List Nat) : List (List Nat) :=
  (List.range l).map (fun j => encodeBand ((sig.drop (j * k)).take k) w)

/-- Modelled from the spec: bucket lookup in one table; an absent key
yields the empty bucket. -/
def lookupBucket (table : List (List Nat × List String)) (key : List Nat) :
    List String :=
  match table.find? (fun e => e.1 == key) with
  | some e => e.2
  | none => []

/-- Modelled from the spec: `Query` computes the `l` band keys, looks each
up in its table, unions all ids found across the `l` lookups, and
deduplicates. -/
def MinhashLSH.Query (f : MinhashLSH) (sig : List Nat) : List String :=
  ((((bandKeys f.k f.l f.bytesPerValue sig).zip f.hashTables).map
    (fun p => lookupBucket p.2 p.1)).flatten).dedup

/-- **C8** (confirmed, spec-modelled).  For every index and every query
signature of length at least `k * l`, the list of ids returned by `Query`
contains no duplicate, regardless of how many of the `l` band lookups
return the same id. -/
theorem Query_nodup (f : MinhashLSH) (sig : List Nat)
    (hlen : f.k * f.l ≤ sig.length) : (f.Query sig).Nodup := by
  clear hlen
  exact List.nodup_dedup _

/-- Witness for C8 at a concrete two-band index in which the same id sits
in both looked-up buckets. -/
theorem Query_nodup_witness :
    (MinhashLSH.Query
      ⟨1, 2, 2,
        [[(encodeBand [3] 2, ["a", "b"])], [(encodeBand [5] 2, ["a"])]]⟩
      [3, 5]).Nodup :=
  Query_nodup
    ⟨1, 2, 2, [[(encodeBand [3] 2, ["a", "b"])], [(encodeBand [5] 2, ["a"])]]⟩
    [3, 5] (by decide)

end MinhashLSH
